import Mathlib

/-!
Verification of the two Toffoli constructions from the myQLM notebooks:
a divide-and-conquer decomposition (dac_toffoli in realistic_lib.py) and a
direct multi-controlled NOT (standard_toffoli in simulation_lib.py).

The embedding represents a built routine as a flat list of multi-controlled
NOT instructions over wires numbered by Nat.  Computational basis states are
functions Nat → Bool.  The recursive builder is threaded with an explicit
fresh-wire counter (modelling wire allocation) and a fuel parameter
(modelling the Python call stack: the recursion in the source has no
structural decrease for n < 3, so the builder is indexed by fuel and returns
none when it runs out).
-/

/-- A gate instruction: a multi-controlled NOT, X.ctrl applied to control
wires cs and target wire t.  Both gates used by the source (X.ctrl 2 and
X.ctrl (n-1)) are instances. -/
inductive Instr : Type where
  | cnx (cs : List Nat) (t : Nat)
  deriving DecidableEq

/-- Action of one instruction on a computational basis state: the target is
flipped exactly when every control wire reads true. -/
def applyInstr : Instr → (Nat → Bool) → Nat → Bool
  | .cnx cs t, s => Function.update s t (xor (s t) (cs.all s))

/-- Run a circuit (list of instructions) left to right on a basis state. -/
def runCirc (c : List Instr) (s : Nat → Bool) : Nat → Bool :=
  c.foldl (fun st i => applyInstr i st) s

/-- Wire w is read or written by the instruction. -/
def instrTouches (w : Nat) : Instr → Prop
  | .cnx cs t => w = t ∨ w ∈ cs

/-- Well-formed instruction: the target is not among its own controls. -/
def instrWF : Instr → Prop
  | .cnx cs t => t ∉ cs

theorem runCirc_nil (s : Nat → Bool) : runCirc [] s = s := rfl

theorem runCirc_cons (i : Instr) (c : List Instr) (s : Nat → Bool) :
    runCirc (i :: c) s = runCirc c (applyInstr i s) := rfl

theorem runCirc_singleton (i : Instr) (s : Nat → Bool) :
    runCirc [i] s = applyInstr i s := rfl

theorem runCirc_append (a b : List Instr) (s : Nat → Bool) :
    runCirc (a ++ b) s = runCirc b (runCirc a s) := by
  simp [runCirc, List.foldl_append]

theorem all_update_of_not_mem (cs : List Nat) (s : Nat → Bool) (w : Nat) (v : Bool)
    (h : w ∉ cs) : cs.all (Function.update s w v) = cs.all s := by
  induction cs with
  | nil => rfl
  | cons a t ih =>
    have ha : a ≠ w := fun e => h (e ▸ List.mem_cons_self a t)
    have ht : w ∉ t := fun e => h (List.mem_cons_of_mem a e)
    simp only [List.all_cons, Function.update_noteq ha, ih ht]

theorem applyInstr_involutive (cs : List Nat) (t : Nat) (hi : t ∉ cs) (s : Nat → Bool) :
    applyInstr (.cnx cs t) (applyInstr (.cnx cs t) s) = s := by
  simp only [applyInstr]
  rw [Function.update_same, all_update_of_not_mem _ _ _ _ hi, Function.update_idem]
  have hx : xor (xor (s t) (cs.all s)) (cs.all s) = s t := by
    cases s t <;> cases cs.all s <;> rfl
  rw [hx, Function.update_eq_self]

theorem runCirc_reverse_cancel (c : List Instr) (hc : ∀ i ∈ c, instrWF i) (s : Nat → Bool) :
    runCirc c.reverse (runCirc c s) = s := by
  induction c generalizing s with
  | nil => rfl
  | cons i t ih =>
    rw [List.reverse_cons, runCirc_cons, runCirc_append, runCirc_singleton]
    have hi : instrWF i := hc i (List.mem_cons_self i t)
    have ht : ∀ j ∈ t, instrWF j := fun j hj => hc j (List.mem_cons_of_mem i hj)
    rw [ih ht (applyInstr i s)]
    cases i with
    | cnx cs tw => exact applyInstr_involutive cs tw hi s

theorem applyInstr_update_comm (i : Instr) (w : Nat) (v : Bool)
    (hw : ¬ instrTouches w i) (s : Nat → Bool) :
    applyInstr i (Function.update s w v) = Function.update (applyInstr i s) w v := by
  cases i with
  | cnx cs t =>
    have hwt : w ≠ t := fun e => hw (Or.inl e)
    have hwc : w ∉ cs := fun e => hw (Or.inr e)
    simp only [applyInstr]
    rw [Function.update_noteq (Ne.symm hwt), all_update_of_not_mem _ _ _ _ hwc,
      Function.update_comm hwt]

theorem runCirc_update_comm (c : List Instr) (w : Nat) (v : Bool)
    (hw : ∀ i ∈ c, ¬ instrTouches w i) (s : Nat → Bool) :
    runCirc c (Function.update s w v) = Function.update (runCirc c s) w v := by
  induction c generalizing s with
  | nil => rfl
  | cons i t ih =>
    rw [runCirc_cons, runCirc_cons,
      applyInstr_update_comm i w v (hw i (List.mem_cons_self i t)),
      ih (fun j hj => hw j (List.mem_cons_of_mem i hj))]

/-- first_half = (n - 1) // 2 + (n - 1) % 2 from the source (line 16). -/
def first_half (n : Nat) : Nat := (n - 1) / 2 + (n - 1) % 2

/-- second_half = (n - 1) // 2 from the source (line 17). -/
def second_half (n : Nat) : Nat := (n - 1) / 2

/-- Fuel-indexed embedding of the body of dac_toffoli from realistic_lib.py.
The routine wires are passed explicitly: controls is the list of control
wires (rout.new_wires(n - 1)), target the target wire, and fresh the next
unallocated wire index.  The result is the flat instruction list, the fresh
counter after the call, and the list of wires this invocation passes to
set_ancillae.  The with rout.compute() block together with rout.uncompute()
appends the reversed compute scope (every gate here is a self-inverse
multi-controlled NOT).  Fuel models the Python call stack: each recursive
call consumes one unit, and exhaustion returns none. -/
def dac_toffoli_aux : Nat → Nat → List Nat → Nat → Nat → Option (List Instr × Nat × List Nat)
  | 0, _, _, _, _ => none
  | fuel + 1, n, controls, target, fresh =>
    if n = 3 then
      some ([Instr.cnx controls target], fresh, [])
    else
      match dac_toffoli_aux fuel (first_half n + 1) (controls.take (first_half n))
          fresh (fresh + 1) with
      | none => none
      | some (c1, f1, _) =>
        if 1 < second_half n then
          match dac_toffoli_aux fuel (second_half n + 1) (controls.drop (first_half n))
              f1 (f1 + 1) with
          | none => none
          | some (c2, f2, _) =>
            some ((c1 ++ c2) ++ [Instr.cnx [fresh, f1] target] ++ (c1 ++ c2).reverse,
              f2, [fresh, f1])
        else
          some (c1 ++ [Instr.cnx [fresh, controls.getD (controls.length - 1) 0] target]
              ++ c1.reverse, f1, [fresh])

/-- Control wires of dac_toffoli n: rout.new_wires(n - 1) gives wires
0, ..., n - 2. -/
def dacControls (n : Nat) : List Nat := List.range (n - 1)

/-- Target wire of dac_toffoli n: the next wire, n - 1. -/
def dacTarget (n : Nat) : Nat := n - 1

/-- Top-level dac_toffoli n: run the builder on the declared wires with the
fresh counter starting at n and fuel n (shown sufficient for n ≥ 3 below). -/
def dac_toffoli (n : Nat) : Option (List Instr × Nat × List Nat) :=
  dac_toffoli_aux n n (dacControls n) (dacTarget n) n

/-- Embedding of standard_toffoli from simulation_lib.py: one X.ctrl (n-1)
across the n wires, controls first, target last. -/
def standard_toffoli (n : Nat) : List Instr :=
  [Instr.cnx (List.range (n - 1)) (n - 1)]

/-- Parameter types accepted by the build_gate decorator in both files. -/
inductive ParamType : Type where
  | int
  deriving DecidableEq

/-- Metadata declared by a build_gate decorator: gate name, parameter types,
and the arity function. -/
structure GateDecl where
  name : String
  paramTypes : List ParamType
  arity : Nat → Nat

/-- Decorator of dac_toffoli: build_gate("TOFF", [int], lambda n: n). -/
def dacToffoliDecl : GateDecl := ⟨"TOFF", [ParamType.int], fun n => n⟩

/-- Decorator of standard_toffoli: build_gate("TOFF", [int], lambda n: n). -/
def standardToffoliDecl : GateDecl := ⟨"TOFF", [ParamType.int], fun n => n⟩

theorem half_facts (n : Nat) (h4 : 4 ≤ n) :
    2 ≤ first_half n ∧ first_half n + 1 < n ∧ first_half n ≤ n - 1 ∧
    first_half n + second_half n = n - 1 ∧ second_half n ≤ first_half n ∧
    (1 < second_half n → 3 ≤ second_half n + 1 ∧ second_half n + 1 < n) ∧
    (second_half n ≤ 1 → n = 4) := by
  unfold first_half second_half
  omega

theorem dac_aux_shape : ∀ fuel n controls target fresh, 3 ≤ n → n ≤ fuel →
    ∃ c nf anc, dac_toffoli_aux fuel n controls target fresh = some (c, nf, anc) ∧
      fresh ≤ nf := by
  intro fuel
  induction fuel with
  | zero => intro n _ _ _ h3 h0; omega
  | succ F ih =>
    intro n controls target fresh h3 hf
    by_cases hn : n = 3
    · subst hn
      exact ⟨[Instr.cnx controls target], fresh, [], by simp [dac_toffoli_aux], le_refl _⟩
    · have h4 : 4 ≤ n := by omega
      obtain ⟨hfh1, hfh2, hfh3, hsum, hshfh, hsh2, hn4⟩ := half_facts n h4
      obtain ⟨c1, f1, a1, e1, hle1⟩ :=
        ih (first_half n + 1) (controls.take (first_half n)) fresh (fresh + 1)
          (by omega) (by omega)
      by_cases hsh : 1 < second_half n
      · obtain ⟨c2, f2, a2, e2, hle2⟩ :=
          ih (second_half n + 1) (controls.drop (first_half n)) f1 (f1 + 1)
            (by omega) (by omega)
        exact ⟨(c1 ++ c2) ++ [Instr.cnx [fresh, f1] target] ++ (c1 ++ c2).reverse, f2,
          [fresh, f1], by simp [dac_toffoli_aux, hn, e1, hsh, e2], by omega⟩
      · exact ⟨c1 ++ [Instr.cnx [fresh, controls.getD (controls.length - 1) 0] target]
            ++ c1.reverse, f1, [fresh],
          by simp [dac_toffoli_aux, hn, e1, hsh], by omega⟩

theorem dac_aux_sem : ∀ fuel n controls target fresh, 3 ≤ n → n ≤ fuel →
    controls.length = n - 1 → controls.Nodup → target ∉ controls →
    (∀ w ∈ controls, w < fresh) → target < fresh →
    ∃ c nf anc,
      dac_toffoli_aux fuel n controls target fresh = some (c, nf, anc) ∧
      fresh ≤ nf ∧
      (∀ i ∈ c, instrWF i) ∧
      (∀ w i, i ∈ c → instrTouches w i →
        w ∈ controls ∨ w = target ∨ (fresh ≤ w ∧ w < nf)) ∧
      (∀ s : Nat → Bool, (∀ w, fresh ≤ w → s w = false) →
        runCirc c s = Function.update s target (xor (s target) (controls.all s))) := by
  intro fuel
  induction fuel with
  | zero => intro n _ _ _ h3 h0; omega
  | succ F ih =>
    intro n controls target fresh h3 hf hlen hnd htc hcf htf
    by_cases hn : n = 3
    · subst hn
      refine ⟨[Instr.cnx controls target], fresh, [], by simp [dac_toffoli_aux],
        le_refl _, ?_, ?_, ?_⟩
      · intro i hi
        rw [List.mem_singleton] at hi
        subst hi
        exact htc
      · intro w i hi hti
        rw [List.mem_singleton] at hi
        subst hi
        rcases hti with h | h
        · exact Or.inr (Or.inl h)
        · exact Or.inl h
      · intro s hs
        rfl
    · have h4 : 4 ≤ n := by omega
      obtain ⟨hfh1, hfh2, hfh3, hsum, hshfh, hsh2, hn4⟩ := half_facts n h4
      have hlen1 : (controls.take (first_half n)).length = first_half n + 1 - 1 := by
        rw [List.length_take]; omega
      have hnd1 : (controls.take (first_half n)).Nodup := by
        have h := hnd
        rw [← List.take_append_drop (first_half n) controls] at h
        exact h.of_append_left
      have htc1 : fresh ∉ controls.take (first_half n) := fun hm =>
        absurd (hcf fresh (List.take_subset _ _ hm)) (lt_irrefl fresh)
      have hcf1 : ∀ w ∈ controls.take (first_half n), w < fresh + 1 := fun w hw =>
        Nat.lt_succ_of_lt (hcf w (List.take_subset _ _ hw))
      obtain ⟨c1, f1, a1, e1, hle1, wf1, touch1, sem1⟩ :=
        ih (first_half n + 1) (controls.take (first_half n)) fresh (fresh + 1)
          (by omega) (by omega) hlen1 hnd1 htc1 hcf1 (Nat.lt_succ_self fresh)
      have hnt1 : ∀ i ∈ c1, ¬ instrTouches target i := by
        intro i hi hti
        rcases touch1 target i hi hti with h | h | h
        · exact htc (List.take_subset _ _ h)
        · omega
        · omega
      by_cases hsh : 1 < second_half n
      · have hlen2 : (controls.drop (first_half n)).length = second_half n + 1 - 1 := by
          rw [List.length_drop]; omega
        have hnd2 : (controls.drop (first_half n)).Nodup := by
          have h := hnd
          rw [← List.take_append_drop (first_half n) controls] at h
          exact h.of_append_right
        have htc2 : f1 ∉ controls.drop (first_half n) := fun hm => by
          have := hcf f1 (List.drop_subset _ _ hm); omega
        have hcf2 : ∀ w ∈ controls.drop (first_half n), w < f1 + 1 := fun w hw => by
          have := hcf w (List.drop_subset _ _ hw); omega
        obtain ⟨c2, f2, a2, e2, hle2, wf2, touch2, sem2⟩ :=
          ih (second_half n + 1) (controls.drop (first_half n)) f1 (f1 + 1)
            (by omega) (by omega) hlen2 hnd2 htc2 hcf2 (Nat.lt_succ_self f1)
        have hnt2 : ∀ i ∈ c2, ¬ instrTouches target i := by
          intro i hi hti
          rcases touch2 target i hi hti with h | h | h
          · exact htc (List.drop_subset _ _ h)
          · omega
          · omega
        have hwf12 : ∀ i ∈ c1 ++ c2, instrWF i := by
          intro i hi
          rcases List.mem_append.mp hi with h | h
          · exact wf1 i h
          · exact wf2 i h
        refine ⟨(c1 ++ c2) ++ [Instr.cnx [fresh, f1] target] ++ (c1 ++ c2).reverse, f2,
          [fresh, f1], by simp [dac_toffoli_aux, hn, e1, hsh, e2], by omega, ?_, ?_, ?_⟩
        · intro i hi
          rcases List.mem_append.mp hi with h12m | hr
          · rcases List.mem_append.mp h12m with h12 | hm
            · exact hwf12 i h12
            · rw [List.mem_singleton] at hm
              subst hm
              intro hmem
              rcases List.mem_cons.mp hmem with h | h
              · omega
              · rcases List.mem_cons.mp h with h' | h'
                · omega
                · exact absurd h' (List.not_mem_nil target)
          · rw [List.mem_reverse] at hr
            exact hwf12 i hr
        · intro w i hi hti
          have hmap1 : i ∈ c1 → w ∈ controls ∨ w = target ∨ (fresh ≤ w ∧ w < f2) := by
            intro h
            rcases touch1 w i h hti with h' | h' | h'
            · exact Or.inl (List.take_subset _ _ h')
            · exact Or.inr (Or.inr ⟨by omega, by omega⟩)
            · exact Or.inr (Or.inr ⟨by omega, by omega⟩)
          have hmap2 : i ∈ c2 → w ∈ controls ∨ w = target ∨ (fresh ≤ w ∧ w < f2) := by
            intro h
            rcases touch2 w i h hti with h' | h' | h'
            · exact Or.inl (List.drop_subset _ _ h')
            · exact Or.inr (Or.inr ⟨by omega, by omega⟩)
            · exact Or.inr (Or.inr ⟨by omega, by omega⟩)
          rcases List.mem_append.mp hi with h12m | hr
          · rcases List.mem_append.mp h12m with h12 | hm
            · rcases List.mem_append.mp h12 with h | h
              · exact hmap1 h
              · exact hmap2 h
            · rw [List.mem_singleton] at hm
              subst hm
              simp only [instrTouches] at hti
              rcases hti with h | h
              · exact Or.inr (Or.inl h)
              · rcases List.mem_cons.mp h with h' | h'
                · exact Or.inr (Or.inr ⟨by omega, by omega⟩)
                · rcases List.mem_cons.mp h' with h'' | h''
                  · exact Or.inr (Or.inr ⟨by omega, by omega⟩)
                  · exact absurd h'' (List.not_mem_nil w)
          · rw [List.mem_reverse] at hr
            rcases List.mem_append.mp hr with h | h
            · exact hmap1 h
            · exact hmap2 h
        · intro s hs
          have hs1 : ∀ w, fresh + 1 ≤ w → s w = false := fun w hw => hs w (by omega)
          have e_run1 : runCirc c1 s =
              Function.update s fresh ((controls.take (first_half n)).all s) := by
            rw [sem1 s hs1, hs fresh (le_refl fresh), Bool.false_xor]
          have hfreshdrop : fresh ∉ controls.drop (first_half n) := fun hm =>
            absurd (hcf fresh (List.drop_subset _ _ hm)) (lt_irrefl fresh)
          have hs2 : ∀ w, f1 + 1 ≤ w →
              Function.update s fresh ((controls.take (first_half n)).all s) w = false := by
            intro w hw
            rw [Function.update_noteq (by omega : w ≠ fresh)]
            exact hs w (by omega)
          have e_run2 : runCirc c2
                (Function.update s fresh ((controls.take (first_half n)).all s)) =
              Function.update
                (Function.update s fresh ((controls.take (first_half n)).all s)) f1
                ((controls.drop (first_half n)).all s) := by
            rw [sem2 _ hs2, Function.update_noteq (by omega : f1 ≠ fresh),
              hs f1 (by omega), Bool.false_xor, all_update_of_not_mem _ _ _ _ hfreshdrop]
          have e12 : runCirc (c1 ++ c2) s =
              Function.update
                (Function.update s fresh ((controls.take (first_half n)).all s)) f1
                ((controls.drop (first_half n)).all s) := by
            rw [runCirc_append, e_run1, e_run2]
          have hu2t : Function.update
                (Function.update s fresh ((controls.take (first_half n)).all s)) f1
                ((controls.drop (first_half n)).all s) target = s target := by
            rw [Function.update_noteq (by omega : target ≠ f1),
              Function.update_noteq (by omega : target ≠ fresh)]
          have hu2fresh : Function.update
                (Function.update s fresh ((controls.take (first_half n)).all s)) f1
                ((controls.drop (first_half n)).all s) fresh =
              (controls.take (first_half n)).all s := by
            rw [Function.update_noteq (by omega : fresh ≠ f1), Function.update_same]
          have hu2f1 : Function.update
                (Function.update s fresh ((controls.take (first_half n)).all s)) f1
                ((controls.drop (first_half n)).all s) f1 =
              (controls.drop (first_half n)).all s := Function.update_same _ _ _
          have hntrev : ∀ i ∈ (c1 ++ c2).reverse, ¬ instrTouches target i := by
            intro i hi
            rw [List.mem_reverse] at hi
            rcases List.mem_append.mp hi with h | h
            · exact hnt1 i h
            · exact hnt2 i h
          have hall : controls.all s = ((controls.take (first_half n)).all s &&
              ((controls.drop (first_half n)).all s && true)) := by
            conv_lhs => rw [← List.take_append_drop (first_half n) controls]
            rw [List.all_append, Bool.and_true]
          rw [runCirc_append, runCirc_append, runCirc_singleton, e12]
          simp only [applyInstr, List.all_cons, List.all_nil]
          rw [hu2t, hu2fresh, hu2f1, runCirc_update_comm _ _ _ hntrev, ← e12,
            runCirc_reverse_cancel (c1 ++ c2) hwf12 s, hall]
      · have hn4e : n = 4 := hn4 (by omega)
        subst hn4e
        have hlen3 : controls.length = 3 := by omega
        obtain ⟨a, b, cc, rfl⟩ := List.length_eq_three.mp hlen3
        have haf : a < fresh := hcf a (by simp)
        have hbf : b < fresh := hcf b (by simp)
        have hccf : cc < fresh := hcf cc (by simp)
        have htcc : target ≠ cc := by
          intro e
          exact htc (by simp [e])
        refine ⟨c1 ++ [Instr.cnx [fresh, cc] target] ++ c1.reverse, f1, [fresh],
          ?_, by omega, ?_, ?_, ?_⟩
        · simp only [dac_toffoli_aux]
          rw [if_neg hn, e1]
          simp [hsh, List.getD]
        · intro i hi
          rcases List.mem_append.mp hi with h1m | hr
          · rcases List.mem_append.mp h1m with h1 | hm
            · exact wf1 i h1
            · rw [List.mem_singleton] at hm
              subst hm
              intro hmem
              rcases List.mem_cons.mp hmem with h | h
              · omega
              · rcases List.mem_cons.mp h with h' | h'
                · exact htcc h'
                · exact absurd h' (List.not_mem_nil target)
          · rw [List.mem_reverse] at hr
            exact wf1 i hr
        · intro w i hi hti
          have hmap1 : i ∈ c1 → w ∈ [a, b, cc] ∨ w = target ∨ (fresh ≤ w ∧ w < f1) := by
            intro h
            rcases touch1 w i h hti with h' | h' | h'
            · exact Or.inl (List.take_subset _ _ h')
            · exact Or.inr (Or.inr ⟨by omega, by omega⟩)
            · exact Or.inr (Or.inr ⟨by omega, by omega⟩)
          rcases List.mem_append.mp hi with h1m | hr
          · rcases List.mem_append.mp h1m with h1 | hm
            · exact hmap1 h1
            · rw [List.mem_singleton] at hm
              subst hm
              simp only [instrTouches] at hti
              rcases hti with h | h
              · exact Or.inr (Or.inl h)
              · rcases List.mem_cons.mp h with h' | h'
                · exact Or.inr (Or.inr ⟨by omega, by omega⟩)
                · rcases List.mem_cons.mp h' with h'' | h''
                  · subst h''
                    exact Or.inl (by simp)
                  · exact absurd h'' (List.not_mem_nil w)
          · rw [List.mem_reverse] at hr
            exact hmap1 hr
        · intro s hs
          have hs1 : ∀ w, fresh + 1 ≤ w → s w = false := fun w hw => hs w (by omega)
          have e_run1 : runCirc c1 s =
              Function.update s fresh (([a, b, cc].take (first_half 4)).all s) := by
            rw [sem1 s hs1, hs fresh (le_refl fresh), Bool.false_xor]
          have hnt1rev : ∀ i ∈ c1.reverse, ¬ instrTouches target i := by
            intro i hi
            rw [List.mem_reverse] at hi
            exact hnt1 i hi
          have hUt : Function.update s fresh (([a, b, cc].take (first_half 4)).all s)
              target = s target := by
            rw [Function.update_noteq (by omega : target ≠ fresh)]
          have hUf : Function.update s fresh (([a, b, cc].take (first_half 4)).all s)
              fresh = ([a, b, cc].take (first_half 4)).all s :=
            Function.update_same _ _ _
          have hUcc : Function.update s fresh (([a, b, cc].take (first_half 4)).all s)
              cc = s cc := by
            rw [Function.update_noteq (by omega : cc ≠ fresh)]
          rw [runCirc_append, runCirc_append, runCirc_singleton, e_run1]
          simp only [applyInstr, List.all_cons, List.all_nil]
          rw [hUt, hUf, hUcc, runCirc_update_comm _ _ _ hnt1rev, ← e_run1,
            runCirc_reverse_cancel c1 wf1 s]
          have htake : ([a, b, cc] : List Nat).take (first_half 4) = [a, b] := rfl
          rw [htake]
          simp only [List.all_cons, List.all_nil]
          have hb : ∀ x y z : Bool, ((x && (y && true)) && (z && true)) =
              (x && (y && (z && true))) := by decide
          rw [hb]

theorem dac_aux_split (fuel n : Nat) (controls : List Nat) (target fresh : Nat)
    (h4 : 4 ≤ n) (hf : n ≤ fuel) :
    ∃ c1 f1 a1,
      dac_toffoli_aux (fuel - 1) (first_half n + 1) (controls.take (first_half n))
        fresh (fresh + 1) = some (c1, f1, a1) ∧ fresh + 1 ≤ f1 ∧
      ((1 < second_half n ∧ ∃ c2 f2 a2,
          dac_toffoli_aux (fuel - 1) (second_half n + 1) (controls.drop (first_half n))
            f1 (f1 + 1) = some (c2, f2, a2) ∧ f1 + 1 ≤ f2 ∧
          dac_toffoli_aux fuel n controls target fresh =
            some ((c1 ++ c2) ++ [Instr.cnx [fresh, f1] target] ++ (c1 ++ c2).reverse,
              f2, [fresh, f1])) ∨
       (second_half n ≤ 1 ∧ n = 4 ∧
          dac_toffoli_aux fuel n controls target fresh =
            some (c1 ++ [Instr.cnx [fresh, controls.getD (controls.length - 1) 0] target]
              ++ c1.reverse, f1, [fresh]))) := by
  obtain ⟨F, rfl⟩ : ∃ F, fuel = F + 1 := ⟨fuel - 1, by omega⟩
  obtain ⟨hfh1, hfh2, hfh3, hsum, hshfh, hsh2, hn4⟩ := half_facts n h4
  have hn : ¬ n = 3 := by omega
  obtain ⟨c1, f1, a1, e1, hle1⟩ :=
    dac_aux_shape F (first_half n + 1) (controls.take (first_half n)) fresh (fresh + 1)
      (by omega) (by omega)
  by_cases hsh : 1 < second_half n
  · obtain ⟨c2, f2, a2, e2, hle2⟩ :=
      dac_aux_shape F (second_half n + 1) (controls.drop (first_half n)) f1 (f1 + 1)
        (by omega) (by omega)
    refine ⟨c1, f1, a1, by simpa using e1, hle1,
      Or.inl ⟨hsh, c2, f2, a2, by simpa using e2, hle2, ?_⟩⟩
    simp [dac_toffoli_aux, hn, e1, hsh, e2]
  · refine ⟨c1, f1, a1, by simpa using e1, hle1,
      Or.inr ⟨by omega, hn4 (by omega), ?_⟩⟩
    simp [dac_toffoli_aux, hn, e1, hsh]

theorem dac_aux_low_none : ∀ fuel n controls target fresh, 1 ≤ n → n < 3 →
    dac_toffoli_aux fuel n controls target fresh = none := by
  intro fuel
  induction fuel with
  | zero => intro n controls target fresh h1 h2; rfl
  | succ F ih =>
    intro n controls target fresh h1 h2
    have hn : ¬ n = 3 := by omega
    have hb : 1 ≤ first_half n + 1 ∧ first_half n + 1 < 3 := by
      have h : first_half n = (n - 1) / 2 + (n - 1) % 2 := rfl
      omega
    have hrec : dac_toffoli_aux F (first_half n + 1) (controls.take (first_half n))
        fresh (fresh + 1) = none := ih _ _ _ _ hb.1 hb.2
    simp [dac_toffoli_aux, hn, hrec]

/-- Claim C1: for every n ≥ 3 and every computational basis state whose
ancilla region (wires ≥ n, borrowed clean) reads 0, the routine built by
dac_toffoli n produces exactly the same state, wire for wire, as the routine
built by standard_toffoli n: the target flips exactly when all n - 1
controls are 1 and every other wire is unchanged. -/
theorem dac_toffoli_equiv_standard (n : Nat) (h3 : 3 ≤ n) (s : Nat → Bool)
    (hs : ∀ w, n ≤ w → s w = false) :
    ∃ c nf anc, dac_toffoli n = some (c, nf, anc) ∧
      ∀ w, runCirc c s w = runCirc (standard_toffoli n) s w := by
  obtain ⟨c, nf, anc, e, hle, hwf, htouch, sem⟩ :=
    dac_aux_sem n n (dacControls n) (dacTarget n) n h3 (le_refl n)
      (by simp [dacControls]) (by exact List.nodup_range (n - 1))
      (by simp [dacControls, dacTarget])
      (fun w hw => by simp only [dacControls, List.mem_range] at hw; omega)
      (by simp only [dacTarget]; omega)
  refine ⟨c, nf, anc, e, fun w => ?_⟩
  rw [sem s hs]
  rfl

/-- Claim C1 witness: instance at n = 3 with the all-zero input state. -/
theorem dac_toffoli_equiv_standard_witness :
    ∃ c nf anc, dac_toffoli 3 = some (c, nf, anc) ∧
      ∀ w, runCirc c (fun _ => false) w =
        runCirc (standard_toffoli 3) (fun _ => false) w :=
  dac_toffoli_equiv_standard 3 (by decide) (fun _ => false) (fun w hw => rfl)

/-- Claim C2: every ancilla wire borrowed by dac_toffoli n (all wires ≥ n,
which start clean) is back to its initial state once the routine completes:
the compute scope is exactly undone by the uncompute step. -/
theorem dac_toffoli_ancillae_restored (n : Nat) (h3 : 3 ≤ n) (s : Nat → Bool)
    (hs : ∀ w, n ≤ w → s w = false) :
    ∃ c nf anc, dac_toffoli n = some (c, nf, anc) ∧
      ∀ w, n ≤ w → runCirc c s w = s w := by
  obtain ⟨c, nf, anc, e, hle, hwf, htouch, sem⟩ :=
    dac_aux_sem n n (dacControls n) (dacTarget n) n h3 (le_refl n)
      (by simp [dacControls]) (by exact List.nodup_range (n - 1))
      (by simp [dacControls, dacTarget])
      (fun w hw => by simp only [dacControls, List.mem_range] at hw; omega)
      (by simp only [dacTarget]; omega)
  refine ⟨c, nf, anc, e, fun w hw => ?_⟩
  rw [sem s hs, Function.update_noteq (by simp only [dacTarget]; omega : w ≠ dacTarget n)]

/-- Claim C2 witness: instance at n = 3 with the all-zero input state. -/
theorem dac_toffoli_ancillae_restored_witness :
    ∃ c nf anc, dac_toffoli 3 = some (c, nf, anc) ∧
      ∀ w, 3 ≤ w → runCirc c (fun _ => false) w = (fun _ : Nat => false) w :=
  dac_toffoli_ancillae_restored 3 (by decide) (fun _ => false) (fun w hw => rfl)

/-- Claim C3: at n = 3 the builder emits exactly one doubly-controlled NOT
with the two control wires as controls and the target wire as target, with
no recursion, no fresh wire allocation and no ancilla marking; at top level
the routine is the single gate X.ctrl 2 on wires 0, 1 and 2. -/
theorem dac_toffoli_base_case :
    (∀ fuel controls target fresh,
      dac_toffoli_aux (fuel + 1) 3 controls target fresh =
        some ([Instr.cnx controls target], fresh, [])) ∧
    dac_toffoli 3 = some ([Instr.cnx [0, 1] 2], 3, []) := by
  constructor
  · intro fuel controls target fresh
    simp [dac_toffoli_aux]
  · rfl

/-- Claim C4 counterexample: at n = 4 the built routine marks only ONE
ancilla wire (the list [4], not two wires), and its central doubly
controlled NOT reads control wire 2 directly rather than a fresh ancilla:
the second half, having a single control, gets no recursive call.  This
refutes the claim that for every n > 3 both halves are computed into fresh
ancilla wires by recursive calls. -/
theorem dac_toffoli_no_second_ancilla_at_four :
    dac_toffoli 4 =
      some ([Instr.cnx [0, 1] 4, Instr.cnx [4, 2] 3, Instr.cnx [0, 1] 4], 5, [4]) ∧
    ¬ (∃ c nf f1 f2, dac_toffoli 4 = some (c, nf, [f1, f2])) := by
  have hval : dac_toffoli 4 =
      some ([Instr.cnx [0, 1] 4, Instr.cnx [4, 2] 3, Instr.cnx [0, 1] 4], 5, [4]) := rfl
  refine ⟨hval, ?_⟩
  rintro ⟨c, nf, f1, f2, h⟩
  rw [hval] at h
  simp at h

/-- Claim C4 (amended): for every n > 3 the controls are split into two
halves; the first half is always computed into the borrowed ancilla wire n
by a recursive call; the second half is computed into a second borrowed
ancilla by a recursive call exactly when it has more than one control
(second_half n > 1); when it has a single control (forcing n = 4) that last
control wire, wire n - 2, is used directly as the second input of the
central doubly-controlled NOT; in both cases the compute scope is followed
by the central gate and then by the reversed scope (the uncompute step). -/
theorem dac_toffoli_split_structure (n : Nat) (h4 : 4 ≤ n) :
    ∃ c1 f1 a1,
      dac_toffoli_aux (n - 1) (first_half n + 1) ((dacControls n).take (first_half n))
        n (n + 1) = some (c1, f1, a1) ∧ n + 1 ≤ f1 ∧
      ((1 < second_half n ∧ ∃ c2 f2 a2,
          dac_toffoli_aux (n - 1) (second_half n + 1) ((dacControls n).drop (first_half n))
            f1 (f1 + 1) = some (c2, f2, a2) ∧
          dac_toffoli n =
            some ((c1 ++ c2) ++ [Instr.cnx [n, f1] (dacTarget n)] ++ (c1 ++ c2).reverse,
              f2, [n, f1])) ∨
       (second_half n ≤ 1 ∧ n = 4 ∧
          dac_toffoli n =
            some (c1 ++ [Instr.cnx [n, n - 2] (dacTarget n)] ++ c1.reverse,
              f1, [n]))) := by
  obtain ⟨c1, f1, a1, e1, hle1, hrest⟩ :=
    dac_aux_split n n (dacControls n) (dacTarget n) n h4 (le_refl n)
  refine ⟨c1, f1, a1, e1, hle1, ?_⟩
  rcases hrest with ⟨hsh, c2, f2, a2, e2, hle2, etop⟩ | ⟨hsh, hn4, etop⟩
  · exact Or.inl ⟨hsh, c2, f2, a2, e2, etop⟩
  · subst hn4
    refine Or.inr ⟨hsh, rfl, ?_⟩
    show dac_toffoli_aux 4 4 (dacControls 4) (dacTarget 4) 4 = _
    rw [etop]
    rfl

/-- Claim C4 witness: instance of the amended claim at n = 4. -/
theorem dac_toffoli_split_structure_witness :
    ∃ c1 f1 a1,
      dac_toffoli_aux (4 - 1) (first_half 4 + 1) ((dacControls 4).take (first_half 4))
        4 (4 + 1) = some (c1, f1, a1) ∧ 4 + 1 ≤ f1 ∧
      ((1 < second_half 4 ∧ ∃ c2 f2 a2,
          dac_toffoli_aux (4 - 1) (second_half 4 + 1) ((dacControls 4).drop (first_half 4))
            f1 (f1 + 1) = some (c2, f2, a2) ∧
          dac_toffoli 4 =
            some ((c1 ++ c2) ++ [Instr.cnx [4, f1] (dacTarget 4)] ++ (c1 ++ c2).reverse,
              f2, [4, f1])) ∨
       (second_half 4 ≤ 1 ∧ 4 = 4 ∧
          dac_toffoli 4 =
            some (c1 ++ [Instr.cnx [4, 4 - 2] (dacTarget 4)] ++ c1.reverse,
              f1, [4]))) :=
  dac_toffoli_split_structure 4 (by decide)

/-- Claim C5 counterexample: dac_toffoli 3 operates on 2 control wires, not
3: rout.new_wires(n - 1) allocates n - 1 control wires, so at n = 3 the
routine does not have n controls plus one target. -/
theorem dac_toffoli_controls_count_counterexample :
    (dacControls 3).length = 2 ∧ ¬ ((dacControls 3).length = 3) := by decide

/-- Claim C5 (amended): for every n ≥ 1, dac_toffoli n operates on n - 1
control wires and 1 target wire, n wires in total, matching the arity n
declared by the build_gate decorator. -/
theorem dac_toffoli_wire_count (n : Nat) (h1 : 1 ≤ n) :
    (dacControls n).length = n - 1 ∧ (dacControls n).length + 1 = n ∧
    dacToffoliDecl.arity n = n := by
  refine ⟨by simp [dacControls], ?_, rfl⟩
  simp only [dacControls, List.length_range]
  omega

/-- Claim C5 witness: instance of the amended claim at n = 3. -/
theorem dac_toffoli_wire_count_witness :
    (dacControls 3).length = 3 - 1 ∧ (dacControls 3).length + 1 = 3 ∧
    dacToffoliDecl.arity 3 = 3 :=
  dac_toffoli_wire_count 3 (by decide)

/-- Claim C6: for every n, standard_toffoli n is exactly one gate, the
(n-1)-controlled NOT across its n wires (controls 0..n-2, target n-1), with
no recursion and no ancilla; running it on any basis state flips wire n - 1
exactly when wires 0..n-2 all read 1 and leaves every other wire
unchanged. -/
theorem standard_toffoli_single_gate (n : Nat) (s : Nat → Bool) :
    (standard_toffoli n).length = 1 ∧
    standard_toffoli n = [Instr.cnx (List.range (n - 1)) (n - 1)] ∧
    runCirc (standard_toffoli n) s =
      Function.update s (n - 1) (xor (s (n - 1)) ((List.range (n - 1)).all s)) :=
  ⟨rfl, rfl, rfl⟩

/-- Claim C7: both functions are registered through the build_gate decorator
with the same gate name TOFF, a single int parameter, and the arity function
mapping every n to n (the routine value each builder returns is modelled by
the circuit data the definitions produce). -/
theorem toffoli_gate_registration :
    dacToffoliDecl.name = "TOFF" ∧ standardToffoliDecl.name = "TOFF" ∧
    dacToffoliDecl.name = standardToffoliDecl.name ∧
    dacToffoliDecl.paramTypes = [ParamType.int] ∧
    standardToffoliDecl.paramTypes = [ParamType.int] ∧
    (∀ n, dacToffoliDecl.arity n = n) ∧ (∀ n, standardToffoliDecl.arity n = n) :=
  ⟨rfl, rfl, rfl, rfl, rfl, fun _ => rfl, fun _ => rfl⟩

/-- Claim C8: for n below 3 (n = 1 or n = 2, where the Nat embedding is
faithful to the Python arithmetic) the builder never returns a routine: for
every fuel bound the recursion fails to reach the base case, modelling the
unbounded Python recursion that surfaces as a RecursionError; in particular
at n = 2 the recursive argument first_half + 1 equals 2 again. -/
theorem dac_toffoli_low_n_diverges (fuel n : Nat) (controls : List Nat)
    (target fresh : Nat) (h1 : 1 ≤ n) (h2 : n < 3) :
    dac_toffoli_aux fuel n controls target fresh = none ∧ first_half 2 + 1 = 2 :=
  ⟨dac_aux_low_none fuel n controls target fresh h1 h2, rfl⟩

/-- Claim C8 witness: instance at n = 2 with one control wire and generous
fuel. -/
theorem dac_toffoli_low_n_diverges_witness :
    dac_toffoli_aux 9 2 [0] 1 2 = none ∧ first_half 2 + 1 = 2 :=
  dac_toffoli_low_n_diverges 9 2 [0] 1 2 (by decide) (by decide)

/-- Claim C9: for every n ≥ 3 the recursion terminates: fuel n suffices at
top level, any fuel ≥ n suffices on any wires, and for n ≥ 4 the first
recursive argument first_half n + 1 lies in [3, n) while, whenever the
second recursive call is made (second_half n > 1), its argument
second_half n + 1 also lies in [3, n), so the recursion always reaches the
n = 3 base case. -/
theorem dac_toffoli_terminates (n : Nat) (h3 : 3 ≤ n) :
    (dac_toffoli n).isSome = true ∧
    (∀ fuel controls target fresh, n ≤ fuel →
      (dac_toffoli_aux fuel n controls target fresh).isSome = true) ∧
    (4 ≤ n → 3 ≤ first_half n + 1 ∧ first_half n + 1 < n ∧
      (1 < second_half n → 3 ≤ second_half n + 1 ∧ second_half n + 1 < n)) := by
  refine ⟨?_, ?_, ?_⟩
  · obtain ⟨c, nf, anc, e, _⟩ :=
      dac_aux_shape n n (dacControls n) (dacTarget n) n h3 (le_refl n)
    show (dac_toffoli_aux n n (dacControls n) (dacTarget n) n).isSome = true
    rw [e]
    rfl
  · intro fuel controls target fresh hfuel
    obtain ⟨c, nf, anc, e, _⟩ := dac_aux_shape fuel n controls target fresh h3 hfuel
    rw [e]
    rfl
  · intro h4
    obtain ⟨hfh1, hfh2, _, _, _, hsh2, _⟩ := half_facts n h4
    exact ⟨by omega, hfh2, hsh2⟩

/-- Claim C9 witness: instance at n = 3. -/
theorem dac_toffoli_terminates_witness :
    (dac_toffoli 3).isSome = true ∧
    (∀ fuel controls target fresh, 3 ≤ fuel →
      (dac_toffoli_aux fuel 3 controls target fresh).isSome = true) ∧
    (4 ≤ 3 → 3 ≤ first_half 3 + 1 ∧ first_half 3 + 1 < 3 ∧
      (1 < second_half 3 → 3 ≤ second_half 3 + 1 ∧ second_half 3 + 1 < 3)) :=
  dac_toffoli_terminates 3 (by decide)

/-- Claim C10: for n ≥ 4 the top-level body of dac_toffoli marks as
ancillae exactly two fresh wires exactly when second_half n > 1
(equivalently n ≥ 5), namely wire n and the fresh wire f1 returned by the
first recursive call, and exactly one fresh wire (wire n) when n = 4, in
which case the central doubly-controlled NOT reads the last control wire
n - 2 directly as its second input. -/
theorem dac_toffoli_ancillae_count (n : Nat) (h4 : 4 ≤ n) :
    ∃ c nf anc, dac_toffoli n = some (c, nf, anc) ∧
      (1 < second_half n ↔ 5 ≤ n) ∧
      (5 ≤ n → ∃ f1, n < f1 ∧ anc = [n, f1]) ∧
      (n = 4 → anc = [n] ∧
        ∃ c1 f1, dac_toffoli n = some (c1 ++ [Instr.cnx [n, n - 2] (dacTarget n)]
          ++ c1.reverse, f1, [n])) := by
  have hiff : 1 < second_half n ↔ 5 ≤ n := by
    simp only [second_half]
    omega
  obtain ⟨c1, f1, a1, e1, hle1, hrest⟩ :=
    dac_aux_split n n (dacControls n) (dacTarget n) n h4 (le_refl n)
  rcases hrest with ⟨hsh, c2, f2, a2, e2, hle2, etop⟩ | ⟨hsh, hn4, etop⟩
  · refine ⟨_, _, _, (show dac_toffoli n = _ from etop), hiff, ?_, ?_⟩
    · intro _
      exact ⟨f1, by omega, rfl⟩
    · intro hn4e
      have h5 := hiff.mp hsh
      omega
  · subst hn4
    refine ⟨_, _, _, (show dac_toffoli 4 = _ from etop), hiff, ?_, ?_⟩
    · intro h5
      omega
    · intro _
      refine ⟨rfl, c1, f1, ?_⟩
      show dac_toffoli_aux 4 4 (dacControls 4) (dacTarget 4) 4 = _
      rw [etop]
      rfl

/-- Claim C10 witness: instance at n = 5 (two ancilla wires marked). -/
theorem dac_toffoli_ancillae_count_witness :
    ∃ c nf anc, dac_toffoli 5 = some (c, nf, anc) ∧
      (1 < second_half 5 ↔ 5 ≤ 5) ∧
      (5 ≤ 5 → ∃ f1, 5 < f1 ∧ anc = [5, f1]) ∧
      (5 = 4 → anc = [5] ∧
        ∃ c1 f1, dac_toffoli 5 = some (c1 ++ [Instr.cnx [5, 5 - 2] (dacTarget 5)]
          ++ c1.reverse, f1, [5])) :=
  dac_toffoli_ancillae_count 5 (by decide)
